import Mathlib

/-!
Verification of the nx-rs task-scheduler core (`src/nx-rs-lib/src/graphing/types.rs`).

Shallow embedding conventions:
* `TaskID` (a Rust `String`) is Lean `String`.
* `HashMap<K, V>` is an association list `List (K × V)`; iteration order of the
  hash map is modelled by the order of the list, and the theorems quantify over
  that order wherever it matters.
* `HashSet<TaskID>` (the completion set) is a `List String` with set-like
  insertion (`setInsert`).
* A Rust panic (the `unwrap` in `TaskGraph::next`) is modelled by returning
  `none` from the embedded function.
-/

namespace NxRs

/-- Model of `Action` (graphing/types.rs): one variant, `Shell(Vec<String>)`. -/
inductive Action where
  | Shell (cmd : List String)
deriving DecidableEq

/-- Model of `Task`: an id, a display name and an action. -/
structure Task where
  id : String
  name : String
  action : Action
deriving DecidableEq

/-- Lookup in an association-list map, first matching key wins
(model of `HashMap::get`). -/
def mapLookup (k : String) : List (String × α) → Option α
  | [] => none
  | (k', v) :: rest => if k = k' then some v else mapLookup k rest

/-- Key-membership test for an association-list map. -/
def isKey (k : String) (m : List (String × α)) : Prop :=
  (mapLookup k m).isSome = true

instance (k : String) (m : List (String × α)) : Decidable (isKey k m) := by
  unfold isKey; infer_instance

/-- Model of `HashMap::insert`: replace the value at an existing key in place,
otherwise append a new entry. -/
def mapInsert (k : String) (v : α) : List (String × α) → List (String × α)
  | [] => [(k, v)]
  | (k', v') :: rest =>
    if k = k' then (k, v) :: rest else (k', v') :: mapInsert k v rest

/-- Model of `edges.entry(k).or_insert_with(Vec::new)` when the entry value is
left unchanged (used by `add_task`). -/
def entryOrNil (k : String) : List (String × List String) → List (String × List String)
  | [] => [(k, [])]
  | (k', ds) :: rest =>
    if k = k' then (k', ds) :: rest else (k', ds) :: entryOrNil k rest

/-- Model of `edges.entry(k).or_insert_with(Vec::new).push(d)`
(used by `add_dependency`). -/
def entryPush (k d : String) : List (String × List String) → List (String × List String)
  | [] => [(k, [d])]
  | (k', ds) :: rest =>
    if k = k' then (k', ds ++ [d]) :: rest else (k', ds) :: entryPush k d rest

/-- Model of `HashSet::insert` on the completion set. -/
def setInsert (x : String) (s : List String) : List String :=
  if x ∈ s then s else x :: s

/-- Model of `TaskGraph` (graphing/types.rs lines 42-54): task map, dependency
map (`a -> [b, c]` means a depends on b and c), completion set, and the
topologically ordered working order. -/
structure TaskGraph where
  tasks : List (String × Task)
  edges : List (String × List String)
  done : List String
  ordered_tasks : List String
deriving DecidableEq

/-- Model of `TaskGraph::done` (renamed: `done` is taken by the field):
insert the id into the completion set, unconditionally. -/
def TaskGraph.markDone (g : TaskGraph) (task_id : String) : TaskGraph :=
  { g with done := setInsert task_id g.done }

/-- Model of `TaskGraph::remaining`: length of the working order. -/
def TaskGraph.remaining (g : TaskGraph) : Nat :=
  g.ordered_tasks.length

/-- Readiness condition from `TaskGraph::next` (lines 86-95): either the task
has no entry in the dependency map, or the completion set is a superset of its
dependency list viewed as a set. -/
def depsSatisfied (edges : List (String × List String)) (done : List String)
    (id : String) : Bool :=
  match mapLookup id edges with
  | none => true
  | some deps => deps.all (fun d => decide (d ∈ done))

/-- The scan loop of `TaskGraph::next` (lines 82-101): find the first id in the
working order whose dependencies are satisfied; return it together with the
working order with that occurrence removed (`ordered_tasks.remove(i)`). -/
def findReady (edges : List (String × List String)) (done : List String) :
    List String → Option (String × List String)
  | [] => none
  | id :: rest =>
    if depsSatisfied edges done id then some (id, rest)
    else
      match findReady edges done rest with
      | some (id', rest') => some (id', id :: rest')
      | none => none

/-- The three observable poll outcomes of `TaskGraph::next`:
`Exhausted` is Rust's outer `None`, `NotReady` is `Some(None)`, and
`Ready t` is `Some(Some(task))`. -/
inductive PollOutcome where
  | Exhausted
  | NotReady
  | Ready (t : Task)
deriving DecidableEq

/-- Model of `Iterator::next` for `TaskGraph` (lines 73-103). The result is
`none` exactly when the Rust code panics on `self.tasks.get(&task_id).unwrap()`;
otherwise it is the poll outcome together with the updated graph. -/
def TaskGraph.next (g : TaskGraph) : Option (PollOutcome × TaskGraph) :=
  if g.ordered_tasks.isEmpty then some (PollOutcome.Exhausted, g)
  else
    match findReady g.edges g.done g.ordered_tasks with
    | none => some (PollOutcome.NotReady, g)
    | some (id, rest) =>
      match mapLookup id g.tasks with
      | some t => some (PollOutcome.Ready t, { g with ordered_tasks := rest })
      | none => none

/-- Model of `TaskGraphBuilder` (lines 106-110). -/
structure TaskGraphBuilder where
  tasks : List (String × Task)
  edges : List (String × List String)
deriving DecidableEq

/-- Model of `TaskGraphBuilder::new`. -/
def TaskGraphBuilder.new : TaskGraphBuilder :=
  { tasks := [], edges := [] }

/-- Model of `TaskGraphBuilder::add_task` (lines 120-123): ensure a (possibly
empty) dependency entry exists, then insert the task under its id. -/
def TaskGraphBuilder.add_task (b : TaskGraphBuilder) (task : Task) : TaskGraphBuilder :=
  { b with
    edges := entryOrNil task.id b.edges
    tasks := mapInsert task.id task b.tasks }

/-- Model of `TaskGraphBuilder::add_dependency` (lines 129-134): append the
dependency to the task's dependency list, creating the entry if needed. -/
def TaskGraphBuilder.add_dependency (b : TaskGraphBuilder) (task dependency : String) :
    TaskGraphBuilder :=
  { b with edges := entryPush task dependency b.edges }

/-- The successor relation used by `build` (lines 148-158): the successors of
`task_id` are the ids of all entries whose dependency list contains `task_id`
(its dependents). -/
def successorsOf (edges : List (String × List String)) (task_id : String) :
    List String :=
  ((edges.filter (fun p => decide (task_id ∈ p.2))).map Prod.fst)

/-- The seeds of the sort (lines 142-147): ids whose dependency list is empty. -/
def start_edges (edges : List (String × List String)) : List String :=
  ((edges.filter (fun p => p.2.isEmpty)).map Prod.fst)

/-- State of the depth-first topological sort: permanently marked nodes, the
temporary marks of the active recursion path, and the output order (built by
pushing to the front, so the final list is read directly front-to-back). -/
structure SortState where
  marked : List String
  temp : List String
  sorted : List String
deriving DecidableEq

/-- One step of the successor iteration of `visit`: visit the next node unless
a cycle or fuel exhaustion already short-circuited the fold. -/
def visitStep (f : String → SortState → Option (Except String SortState))
    (acc : Option (Except String SortState)) (n : String) :
    Option (Except String SortState) :=
  match acc with
  | some (Except.ok s) => f n s
  | other => other

/-- Modelled from the spec: the depth-first visit of `pathfinding`'s
`topological_sort`, the crate function called by `build` (its source is not in
this repository). Per the spec §4.1, the sort is seeded from the given nodes,
follows the successor relation, pushes each finished node in front of its
already-finished successors, and fails on a node found on the active recursion
path (a cycle). The explicit fuel makes the function total; `none` means the
fuel ran out, which the fuel lemmas below show never happens for the fuel
`build` supplies. The iteration over the successors is a left fold so that the
recursion is structural in the fuel. -/
def visit (succ : String → List String) :
    Nat → String → SortState → Option (Except String SortState)
  | 0, _, _ => none
  | fuel + 1, node, st =>
    if node ∈ st.marked then some (Except.ok st)
    else if node ∈ st.temp then some (Except.error node)
    else
      match (succ node).foldl
          (fun acc n => visitStep (fun m s => visit succ fuel m s) acc n)
          (some (Except.ok { st with temp := node :: st.temp })) with
      | none => none
      | some (Except.error e) => some (Except.error e)
      | some (Except.ok st') =>
        some (Except.ok
          { marked := node :: st'.marked
            temp := st'.temp.erase node
            sorted := node :: st'.sorted })

/-- The successor iteration of `visit`, factored out for reasoning. -/
def foldVisit (f : String → SortState → Option (Except String SortState))
    (ns : List String) (st : SortState) : Option (Except String SortState) :=
  ns.foldl (fun acc n => visitStep (fun m s => f m s) acc n) (some (Except.ok st))

/-- Modelled from the spec: the top-level loop of the sort, visiting each seed
in turn. -/
def sortLoop (succ : String → List String) (fuel : Nat) :
    List String → SortState → Option (Except String SortState)
  | [], st => some (Except.ok st)
  | r :: rs, st =>
    match visit succ fuel r st with
    | none => none
    | some (Except.error e) => some (Except.error e)
    | some (Except.ok st') => sortLoop succ fuel rs st'

/-- Modelled from the spec: `pathfinding::prelude::topological_sort`, seeded
from `roots`, returning either a dependency-first order of the nodes reachable
from the seeds or a node that participates in a cycle. -/
def topological_sort (roots : List String) (succ : String → List String)
    (fuel : Nat) : Option (Except String (List String)) :=
  match sortLoop succ fuel roots { marked := [], temp := [], sorted := [] } with
  | none => none
  | some (Except.error e) => some (Except.error e)
  | some (Except.ok st) => some (Except.ok st.sorted)

/-- Model of `TaskGraphBuilder::build` (lines 140-168): seed the sort with the
ids whose dependency list is empty, sort along the dependents relation, and on
success wrap the state into a `TaskGraph` with an empty completion set. The
fuel `b.edges.length + 1` is always sufficient (`sortLoop_fuel` below), so the
`none` fallback branch is unreachable. -/
def TaskGraphBuilder.build (b : TaskGraphBuilder) : Except String TaskGraph :=
  match topological_sort (start_edges b.edges) (successorsOf b.edges)
      (b.edges.length + 1) with
  | some (Except.ok ordered) =>
    Except.ok
      { tasks := b.tasks, edges := b.edges, done := [], ordered_tasks := ordered }
  | some (Except.error e) => Except.error e
  | none => Except.error ""

/-- Builder-level operations, used to quantify over every dependency
declaration reachable through the public `TaskGraphBuilder` interface. -/
inductive BuilderOp where
  | addTask (t : Task)
  | addDep (task dependency : String)
deriving DecidableEq

/-- Apply a sequence of builder operations. -/
def TaskGraphBuilder.applyOps (b : TaskGraphBuilder) : List BuilderOp → TaskGraphBuilder
  | [] => b
  | BuilderOp.addTask t :: rest => (b.add_task t).applyOps rest
  | BuilderOp.addDep t d :: rest => (b.add_dependency t d).applyOps rest

/-- Runtime operations on a built graph: a poll (`next`) or a completion
report (`done`). -/
inductive SchedOp where
  | poll
  | done (id : String)
deriving DecidableEq

/-- One runtime step. A poll that panics (`next = none`) leaves the state
unchanged: the aborted program makes no further observations. -/
def TaskGraph.step (g : TaskGraph) : SchedOp → TaskGraph
  | SchedOp.poll =>
    match g.next with
    | some (_, g') => g'
    | none => g
  | SchedOp.done id => g.markDone id

/-- Run a sequence of runtime operations. -/
def TaskGraph.run (g : TaskGraph) (ops : List SchedOp) : TaskGraph :=
  ops.foldl TaskGraph.step g

/-- The sequence of poll outcomes observed while running `ops` (a panic ends
the observations). -/
def TaskGraph.runTrace (g : TaskGraph) : List SchedOp → List PollOutcome
  | [] => []
  | SchedOp.poll :: rest =>
    match g.next with
    | some (o, g') => o :: g'.runTrace rest
    | none => []
  | SchedOp.done id :: rest => (g.markDone id).runTrace rest

/-- The ids of the tasks dispatched through `Ready` outcomes, in order. -/
def readyIds : List PollOutcome → List String
  | [] => []
  | PollOutcome.Ready t :: rest => t.id :: readyIds rest
  | _ :: rest => readyIds rest

/-- The dependency relation of a dependency map: `depOn e a b` means `a`
depends on `b` (`b` occurs in `a`'s dependency list). -/
def depOn (edges : List (String × List String)) (a b : String) : Prop :=
  b ∈ (mapLookup a edges).getD []

/-- Acyclicity of a dependency map: no id transitively depends on itself. -/
def Acyclic (edges : List (String × List String)) : Prop :=
  ∀ id, ¬ Relation.TransGen (depOn edges) id id

/-- The successor relation as a relation. -/
def succRel (edges : List (String × List String)) (a b : String) : Prop :=
  b ∈ successorsOf edges a

deriving instance DecidableEq for Except

/-! ### Concrete objects used by witnesses and counterexamples -/

def tA : Task := ⟨"a", "a", Action.Shell []⟩

def tB : Task := ⟨"b", "b", Action.Shell []⟩

def tX : Task := ⟨"x", "x", Action.Shell []⟩

def tY : Task := ⟨"y", "y", Action.Shell []⟩

def tQ : Task := ⟨"q", "q", Action.Shell []⟩

/-- Builder ops: b has no dependencies, a depends on b. -/
def abOps : List BuilderOp :=
  [BuilderOp.addTask tB, BuilderOp.addTask tA, BuilderOp.addDep "a" "b"]

/-- The graph `abOps` builds. -/
def abGraph : TaskGraph :=
  ⟨[("b", tB), ("a", tA)], [("b", []), ("a", ["b"])], [], ["b", "a"]⟩

/-- Graph state reached from `abGraph` after dispatching b and reporting it
done: a is about to be dispatched with its dependency completed. -/
def abMid : TaskGraph :=
  ⟨[("b", tB), ("a", tA)], [("b", []), ("a", ["b"])], ["b"], ["a"]⟩

/-- Builder ops for the spec's "cycle" scenario: a depends on b, b depends
on a, both registered. -/
def cycOps : List BuilderOp :=
  [BuilderOp.addTask tA, BuilderOp.addTask tB,
   BuilderOp.addDep "a" "b", BuilderOp.addDep "b" "a"]

def xyTasks : List (String × Task) := [("x", tX), ("y", tY)]

def xyEdges : List (String × List String) := [("x", ["y"]), ("y", [])]

/-- Builder ops for the spec's "not ready yet" scenario: x depends on y. -/
def xyOps : List BuilderOp :=
  [BuilderOp.addTask tX, BuilderOp.addTask tY, BuilderOp.addDep "x" "y"]

/-- The graph `xyOps` builds: y first in the working order, then x. -/
def xyGraph : TaskGraph := ⟨xyTasks, xyEdges, [], ["y", "x"]⟩

/-- `xyGraph` after its first poll dispatched y. -/
def xyGraph1 : TaskGraph := ⟨xyTasks, xyEdges, [], ["x"]⟩

/-- Invariant of the x-depends-on-y graph while `done("y")` has not been
called: fixed maps, y not completed, and a working order of `["y", "x"]` or
`["x"]`. -/
def XYInv (g : TaskGraph) : Prop :=
  g.tasks = xyTasks ∧ g.edges = xyEdges ∧ "y" ∉ g.done ∧
    (g.ordered_tasks = ["y", "x"] ∨ g.ordered_tasks = ["x"])

/-- Builder ops with a dependency whose task id p is never registered. -/
def pqOps : List BuilderOp := [BuilderOp.addTask tQ, BuilderOp.addDep "p" "q"]

/-- The graph `pqOps` builds: p is in the working order but not the task map. -/
def pqGraph : TaskGraph := ⟨[("q", tQ)], [("q", []), ("p", ["q"])], [], ["q", "p"]⟩

/-- A builder registering a single isolated task, used as the C4 witness. -/
def aOnly : TaskGraphBuilder := TaskGraphBuilder.new.applyOps [BuilderOp.addTask tA]

/-- What a completed `visit` of one node guarantees: marks and output grow by
a common block of freshly marked nodes (each the visited node itself or some
node's successor, none previously marked or on the recursion path), the
recursion path is restored, and the visited node ends up marked. -/
def VPost (succ : String → List String) (node : String) (st st' : SortState) : Prop :=
  ∃ pre : List String,
    st'.marked = pre ++ st.marked ∧
    st'.sorted = pre ++ st.sorted ∧
    st'.temp = st.temp ∧
    node ∈ st'.marked ∧
    (∀ x ∈ pre, x = node ∨ ∃ y, x ∈ succ y) ∧
    (∀ x ∈ pre, x ∉ st.temp) ∧
    (∀ x ∈ pre, x ∉ st.marked) ∧
    pre.Nodup

/-- What a completed successor iteration guarantees: like `VPost`, and every
iterated node ends up marked. -/
def QPost (succ : String → List String) (ns : List String) (st st' : SortState) : Prop :=
  ∃ pre : List String,
    st'.marked = pre ++ st.marked ∧
    st'.sorted = pre ++ st.sorted ∧
    st'.temp = st.temp ∧
    (∀ n ∈ ns, n ∈ st'.marked) ∧
    (∀ x ∈ pre, x ∈ ns ∨ ∃ y, x ∈ succ y) ∧
    (∀ x ∈ pre, x ∉ st.temp) ∧
    (∀ x ∈ pre, x ∉ st.marked) ∧
    pre.Nodup

/-- Invariant of the sort state: the marked set and the output agree, the
output lists every node strictly before all of its successors, and the output
has no duplicates. -/
def GoodSt (succ : String → List String) (st : SortState) : Prop :=
  (∀ x, x ∈ st.marked ↔ x ∈ st.sorted) ∧
  (∀ l₁ x l₂, st.sorted = l₁ ++ x :: l₂ → ∀ m ∈ succ x, m ∈ l₂) ∧
  st.sorted.Nodup

/-! ### Basic lemmas about the scan loop `findReady` -/

example : depsSatisfied [("a", ["b"])] [] "a" = false := by decide
example : depsSatisfied [("a", ["b"])] ["b"] "a" = true := by decide
example : depsSatisfied [("a", ["b"])] [] "c" = true := by decide

theorem findReady_sat {e : List (String × List String)} {d : List String} :
    ∀ {l : List String} {id : String} {rest : List String},
      findReady e d l = some (id, rest) → depsSatisfied e d id = true := by
  intro l
  induction l with
  | nil => intro id rest h; simp [findReady] at h
  | cons a l ih =>
    intro id rest h
    by_cases ha : depsSatisfied e d a
    · simp [findReady, ha] at h
      exact h.1 ▸ ha
    · simp [findReady, ha] at h
      cases hr : findReady e d l with
      | none => rw [hr] at h; simp at h
      | some pr =>
        rw [hr] at h
        cases pr with
        | mk id' rest' =>
          simp at h
          exact h.1 ▸ ih hr

theorem findReady_split {e : List (String × List String)} {d : List String} :
    ∀ {l : List String} {id : String} {rest : List String},
      findReady e d l = some (id, rest) →
      ∃ l₁ l₂, l = l₁ ++ id :: l₂ ∧ rest = l₁ ++ l₂ ∧
        ∀ x ∈ l₁, depsSatisfied e d x = false := by
  intro l
  induction l with
  | nil => intro id rest h; simp [findReady] at h
  | cons a l ih =>
    intro id rest h
    by_cases ha : depsSatisfied e d a
    · simp [findReady, ha] at h
      exact ⟨[], l, by simp [h.1], by simp [h.2], by simp⟩
    · simp [findReady, ha] at h
      cases hr : findReady e d l with
      | none => rw [hr] at h; simp at h
      | some pr =>
        rw [hr] at h
        cases pr with
        | mk id' rest' =>
          simp at h
          obtain ⟨l₁, l₂, hl, hrest, hfail⟩ := ih hr
          refine ⟨a :: l₁, l₂, by simp [h.1 ▸ hl], ?_, ?_⟩
          · simp [← h.2, hrest]
          · intro x hx
            rcases List.mem_cons.mp hx with hxa | hx1
            · exact hxa ▸ eq_false_of_ne_true ha
            · exact hfail x hx1

theorem findReady_none {e : List (String × List String)} {d : List String} :
    ∀ {l : List String}, findReady e d l = none ↔
      ∀ x ∈ l, depsSatisfied e d x = false := by
  intro l
  induction l with
  | nil => simp [findReady]
  | cons a l ih =>
    by_cases ha : depsSatisfied e d a
    · simp [findReady, ha]
    · simp only [findReady, ha, if_false]
      cases hr : findReady e d l with
      | none =>
        simp only [hr]
        constructor
        · intro _ x hx
          rcases List.mem_cons.mp hx with hxa | hx1
          · exact hxa ▸ eq_false_of_ne_true ha
          · exact ih.mp hr x hx1
        · intro _; rfl
      | some pr =>
        cases pr with
        | mk id' rest' =>
          simp only [hr]
          constructor
          · intro h; simp at h
          · intro h
            have : findReady e d l = none := by
              rw [ih]
              intro x hx; exact h x (List.mem_cons_of_mem a hx)
            rw [this] at hr; simp at hr

/-- `findReady` in terms of `List.find?`, `takeWhile` and `dropWhile`:
the first satisfied task is returned and removed in place. -/
theorem findReady_eq_find? {e : List (String × List String)} {d : List String} :
    ∀ {l : List String} {id : String},
      l.find? (fun x => depsSatisfied e d x) = some id →
      findReady e d l =
        some (id, l.takeWhile (fun x => ! depsSatisfied e d x) ++
          (l.dropWhile (fun x => ! depsSatisfied e d x)).tail) := by
  intro l
  induction l with
  | nil => intro id h; simp at h
  | cons a l ih =>
    intro id h
    by_cases ha : depsSatisfied e d a
    · rw [List.find?_cons_of_pos _ (by simpa using ha)] at h
      have hid : a = id := by simpa using h
      subst hid
      simp [findReady, ha, List.takeWhile_cons, List.dropWhile_cons]
    · rw [List.find?_cons_of_neg _ (by simpa using ha)] at h
      have := ih h
      simp [findReady, ha, this, List.takeWhile_cons, List.dropWhile_cons]

/-! ### Basic lemmas about `next`, `step` and `run` -/

theorem next_exhausted_iff {g g' : TaskGraph} :
    g.next = some (PollOutcome.Exhausted, g') ↔ g.ordered_tasks = [] ∧ g' = g := by
  constructor
  · intro h
    by_cases he : g.ordered_tasks.isEmpty
    · simp [TaskGraph.next, he] at h
      exact ⟨List.isEmpty_iff.mp he, h.symm⟩
    · exfalso
      cases hf : findReady g.edges g.done g.ordered_tasks with
      | none => simp [TaskGraph.next, he, hf] at h
      | some pr =>
        cases pr with
        | mk id rest =>
          cases ht : mapLookup id g.tasks with
          | none => simp [TaskGraph.next, he, hf, ht] at h
          | some t => simp [TaskGraph.next, he, hf, ht] at h
  · rintro ⟨ho, rfl⟩
    simp [TaskGraph.next, ho]

theorem next_ready_elim {g g' : TaskGraph} {t : Task} :
    g.next = some (PollOutcome.Ready t, g') →
    ∃ id rest, findReady g.edges g.done g.ordered_tasks = some (id, rest) ∧
      mapLookup id g.tasks = some t ∧ g' = { g with ordered_tasks := rest } := by
  intro h
  by_cases he : g.ordered_tasks.isEmpty
  · simp [TaskGraph.next, he] at h
  · cases hf : findReady g.edges g.done g.ordered_tasks with
    | none => simp [TaskGraph.next, he, hf] at h
    | some pr =>
      cases pr with
      | mk id rest =>
        cases ht : mapLookup id g.tasks with
        | none => simp [TaskGraph.next, he, hf, ht] at h
        | some t' =>
          simp [TaskGraph.next, he, hf, ht] at h
          exact ⟨id, rest, rfl, by rw [ht, h.1], h.2.symm⟩

theorem next_notReady_elim {g g' : TaskGraph} :
    g.next = some (PollOutcome.NotReady, g') →
    findReady g.edges g.done g.ordered_tasks = none ∧ g' = g := by
  intro h
  by_cases he : g.ordered_tasks.isEmpty
  · simp [TaskGraph.next, he] at h
  · cases hf : findReady g.edges g.done g.ordered_tasks with
    | none =>
      simp [TaskGraph.next, he, hf] at h
      exact ⟨rfl, h.symm⟩
    | some pr =>
      cases pr with
      | mk id rest =>
        cases ht : mapLookup id g.tasks with
        | none => simp [TaskGraph.next, he, hf, ht] at h
        | some t' => simp [TaskGraph.next, he, hf, ht] at h

/-- Every non-panicking poll leaves the task map, the dependency map and the
completion set unchanged; the working order of the result is a sublist. -/
theorem next_frame {g g' : TaskGraph} {o : PollOutcome} :
    g.next = some (o, g') →
    g'.tasks = g.tasks ∧ g'.edges = g.edges ∧ g'.done = g.done ∧
      g'.ordered_tasks.Sublist g.ordered_tasks := by
  intro h
  cases o with
  | Exhausted =>
    obtain ⟨ho, rfl⟩ := next_exhausted_iff.mp h
    exact ⟨rfl, rfl, rfl, List.Sublist.refl _⟩
  | NotReady =>
    obtain ⟨_, rfl⟩ := next_notReady_elim h
    exact ⟨rfl, rfl, rfl, List.Sublist.refl _⟩
  | Ready t =>
    obtain ⟨id, rest, hf, _, rfl⟩ := next_ready_elim h
    obtain ⟨l₁, l₂, hl, hrest, _⟩ := findReady_split hf
    refine ⟨rfl, rfl, rfl, ?_⟩
    simp only [hl, hrest]
    exact List.Sublist.append (List.Sublist.refl l₁) (List.sublist_cons_self id l₂)

theorem step_frame (g : TaskGraph) (op : SchedOp) :
    (g.step op).tasks = g.tasks ∧ (g.step op).edges = g.edges ∧
      (g.step op).ordered_tasks.Sublist g.ordered_tasks ∧
      ∀ x ∈ g.done, x ∈ (g.step op).done := by
  cases op with
  | poll =>
    cases hn : g.next with
    | none =>
      simp [TaskGraph.step, hn]
    | some pr =>
      cases pr with
      | mk o g' =>
        obtain ⟨h1, h2, h3, h4⟩ := next_frame hn
        simp only [TaskGraph.step, hn]
        exact ⟨h1, h2, h4, fun x hx => h3 ▸ hx⟩
  | done id =>
    refine ⟨rfl, rfl, List.Sublist.refl _, ?_⟩
    intro x hx
    simp only [TaskGraph.step, TaskGraph.markDone, setInsert]
    split
    · exact hx
    · exact List.mem_cons_of_mem _ hx

theorem run_frame (g : TaskGraph) (ops : List SchedOp) :
    (g.run ops).tasks = g.tasks ∧ (g.run ops).edges = g.edges ∧
      (g.run ops).ordered_tasks.Sublist g.ordered_tasks ∧
      ∀ x ∈ g.done, x ∈ (g.run ops).done := by
  induction ops generalizing g with
  | nil => exact ⟨rfl, rfl, List.Sublist.refl _, fun x hx => hx⟩
  | cons op ops ih =>
    obtain ⟨s1, s2, s3, s4⟩ := step_frame g op
    obtain ⟨r1, r2, r3, r4⟩ := ih (g.step op)
    exact ⟨r1.trans s1, r2.trans s2, r3.trans s3,
      fun x hx => r4 x (s4 x hx)⟩

/-! ### Map and builder helper lemmas -/

theorem mapLookup_mem {m : List (String × α)} {k : String} {v : α} :
    mapLookup k m = some v → (k, v) ∈ m := by
  induction m with
  | nil => intro h; simp [mapLookup] at h
  | cons p m ih =>
    intro h
    cases p with
    | mk k' v' =>
      by_cases hk : k = k'
      · simp [mapLookup, hk] at h
        simp [hk, h]
      · simp [mapLookup, hk] at h
        exact List.mem_cons_of_mem _ (ih h)

theorem depsSatisfied_true_iff {e : List (String × List String)} {d : List String}
    {id : String} :
    depsSatisfied e d id = true ↔ ∀ x ∈ (mapLookup id e).getD [], x ∈ d := by
  unfold depsSatisfied
  cases h : mapLookup id e with
  | none => simp
  | some deps => simp [List.all_eq_true]

theorem mem_mapInsert {m : List (String × α)} {k : String} {v : α} {p : String × α} :
    p ∈ mapInsert k v m → p = (k, v) ∨ p ∈ m := by
  induction m with
  | nil => intro h; simp [mapInsert] at h; exact Or.inl h
  | cons q m ih =>
    intro h
    cases q with
    | mk k' v' =>
      by_cases hk : k = k'
      · simp [mapInsert, hk] at h
        rcases h with h | h
        · exact Or.inl (by simp [h, hk])
        · exact Or.inr (List.mem_cons_of_mem _ h)
      · simp [mapInsert, hk] at h
        rcases h with h | h
        · exact Or.inr (by simp [h])
        · rcases ih h with h' | h'
          · exact Or.inl h'
          · exact Or.inr (List.mem_cons_of_mem _ h')

/-- Every pair in the task map of a builder reachable through the public
interface satisfies `value.id = key` (`add_task` inserts under `task.id`). -/
theorem applyOps_tasks_consistent (bops : List BuilderOp) :
    ∀ p ∈ (TaskGraphBuilder.new.applyOps bops).tasks, p.2.id = p.1 := by
  have main : ∀ (bops : List BuilderOp) (b : TaskGraphBuilder),
      (∀ p ∈ b.tasks, p.2.id = p.1) →
      ∀ p ∈ (b.applyOps bops).tasks, p.2.id = p.1 := by
    intro bops
    induction bops with
    | nil => intro b hb; exact hb
    | cons op rest ih =>
      intro b hb
      cases op with
      | addTask t =>
        refine ih _ ?_
        intro p hp
        rcases mem_mapInsert hp with h | h
        · simp [h]
        · exact hb p h
      | addDep a d => exact ih _ hb
  intro p hp
  exact main bops TaskGraphBuilder.new (by intro q hq; simp [TaskGraphBuilder.new] at hq) p hp

/-- Inversion of a successful `build`: the graph carries the builder's maps, an
empty completion set, and the order produced by the seeded sort. -/
theorem build_ok_elim {b : TaskGraphBuilder} {g : TaskGraph} :
    b.build = Except.ok g →
    ∃ st : SortState,
      sortLoop (successorsOf b.edges) (b.edges.length + 1) (start_edges b.edges)
        { marked := [], temp := [], sorted := [] } = some (Except.ok st) ∧
      g = { tasks := b.tasks, edges := b.edges, done := [], ordered_tasks := st.sorted } := by
  intro h
  unfold TaskGraphBuilder.build topological_sort at h
  cases hs : sortLoop (successorsOf b.edges) (b.edges.length + 1) (start_edges b.edges)
      { marked := [], temp := [], sorted := [] } with
  | none => rw [hs] at h; simp at h
  | some r =>
    cases r with
    | error e => rw [hs] at h; simp at h
    | ok st =>
      rw [hs] at h
      simp at h
      exact ⟨st, rfl, h.symm⟩

/-! ### Claim C1 -/

/-- C1: for every TaskGraph produced by a successful build and every sequence
of poll/done calls, no poll ever returns `Ready t` unless every id in `t`'s
dependency list is in the completion set at that moment (a task with no entry
or an empty entry is vacuously ready). -/
theorem C1_ready_implies_deps_done
    (bops : List BuilderOp) (sops : List SchedOp) (g₀ g g' : TaskGraph) (t : Task)
    (hbuild : (TaskGraphBuilder.new.applyOps bops).build = Except.ok g₀)
    (hrun : g = g₀.run sops)
    (hnext : g.next = some (PollOutcome.Ready t, g')) :
    ∀ d ∈ (mapLookup t.id g.edges).getD [], d ∈ g.done := by
  obtain ⟨st, _, hg₀⟩ := build_ok_elim hbuild
  have htasks : g.tasks = (TaskGraphBuilder.new.applyOps bops).tasks := by
    have := (run_frame g₀ sops).1
    rw [hrun, this, hg₀]
  obtain ⟨id, rest, hf, hlook, _⟩ := next_ready_elim hnext
  have hmem : (id, t) ∈ g.tasks := mapLookup_mem hlook
  have htid : t.id = id := by
    have := applyOps_tasks_consistent bops (id, t) (htasks ▸ hmem)
    simpa using this
  have hsat := findReady_sat hf
  rw [htid]
  exact depsSatisfied_true_iff.mp hsat

/-- Witness for C1 at a concrete input: after dispatching b and marking it
done, polling dispatches a, and a's dependency list is inside the completion
set. -/
theorem C1_ready_implies_deps_done_witness :
    ((TaskGraphBuilder.new.applyOps abOps).build = Except.ok abGraph) ∧
    (abMid = abGraph.run [SchedOp.poll, SchedOp.done "b"]) ∧
    (abMid.next = some (PollOutcome.Ready tA,
      ⟨[("b", tB), ("a", tA)], [("b", []), ("a", ["b"])], ["b"], []⟩)) ∧
    ∀ d ∈ (mapLookup tA.id abMid.edges).getD [], d ∈ abMid.done := by
  refine ⟨by decide, by decide, by decide, ?_⟩
  exact C1_ready_implies_deps_done abOps [SchedOp.poll, SchedOp.done "b"]
    abGraph abMid
    ⟨[("b", tB), ("a", tA)], [("b", []), ("a", ["b"])], ["b"], []⟩ tA
    (by decide) (by decide) (by decide)

/-! ### Claim C5 -/

/-- C5: once a poll observes `Exhausted`, every later poll after any sequence
of done and poll calls also observes `Exhausted`; the working order never
regains an element. -/
theorem C5_exhausted_terminal
    (g g₁ : TaskGraph) (ops : List SchedOp)
    (h : g.next = some (PollOutcome.Exhausted, g₁)) :
    (g₁.run ops).ordered_tasks = [] ∧
    (g₁.run ops).next = some (PollOutcome.Exhausted, g₁.run ops) := by
  have hg : g₁ = g := (next_exhausted_iff.mp h).2
  have ho : g.ordered_tasks = [] := (next_exhausted_iff.mp h).1
  subst hg
  have hsub := (run_frame g₁ ops).2.2.1
  rw [ho] at hsub
  have hempty : (g₁.run ops).ordered_tasks = [] := List.sublist_nil.mp hsub
  exact ⟨hempty, by simp [TaskGraph.next, hempty]⟩

/-- Witness for C5 at a concrete input: the empty graph polls `Exhausted`, and
still does after a further done and poll. -/
theorem C5_exhausted_terminal_witness :
    ((⟨[], [], [], []⟩ : TaskGraph).next =
      some (PollOutcome.Exhausted, (⟨[], [], [], []⟩ : TaskGraph))) ∧
    ((⟨[], [], [], []⟩ : TaskGraph).run [SchedOp.done "z", SchedOp.poll]).ordered_tasks = [] ∧
    ((⟨[], [], [], []⟩ : TaskGraph).run [SchedOp.done "z", SchedOp.poll]).next =
      some (PollOutcome.Exhausted,
        (⟨[], [], [], []⟩ : TaskGraph).run [SchedOp.done "z", SchedOp.poll]) := by
  refine ⟨by decide, ?_⟩
  exact C5_exhausted_terminal (⟨[], [], [], []⟩ : TaskGraph) (⟨[], [], [], []⟩ : TaskGraph)
    [SchedOp.done "z", SchedOp.poll] (by decide)

/-! ### Claim C6 -/

/-- C6: `remaining()` equals the length of the current working order; it drops
by exactly one on a `Ready` poll, is unchanged on a `NotReady` or `Exhausted`
poll, and is unchanged by any `done` call. -/
theorem C6_remaining_counts_working_order
    (g g' g'' : TaskGraph) (t : Task) (o : PollOutcome) (id : String) :
    g.remaining = g.ordered_tasks.length ∧
    (g.next = some (PollOutcome.Ready t, g') → g'.remaining + 1 = g.remaining) ∧
    (g.next = some (o, g'') → o = PollOutcome.NotReady ∨ o = PollOutcome.Exhausted →
      g''.remaining = g.remaining) ∧
    (g.markDone id).remaining = g.remaining := by
  refine ⟨rfl, ?_, ?_, rfl⟩
  · intro h
    obtain ⟨i, rest, hf, _, rfl⟩ := next_ready_elim h
    obtain ⟨l₁, l₂, hl, hrest, _⟩ := findReady_split hf
    simp [TaskGraph.remaining, hl, hrest]
    omega
  · intro h ho
    rcases ho with rfl | rfl
    · obtain ⟨_, rfl⟩ := next_notReady_elim h; rfl
    · obtain ⟨_, rfl⟩ := next_exhausted_iff.mp h; rfl

/-- Witness for C6 at a concrete input: a one-task graph whose poll dispatches
the task and drops `remaining` from 1 to 0. -/
theorem C6_remaining_counts_working_order_witness :
    ((⟨[("a", ⟨"a", "a", Action.Shell []⟩)], [("a", [])], [], ["a"]⟩ : TaskGraph).next =
      some (PollOutcome.Ready ⟨"a", "a", Action.Shell []⟩,
        (⟨[("a", ⟨"a", "a", Action.Shell []⟩)], [("a", [])], [], []⟩ : TaskGraph))) ∧
    ((⟨[("a", ⟨"a", "a", Action.Shell []⟩)], [("a", [])], [], []⟩ : TaskGraph).remaining + 1 =
      (⟨[("a", ⟨"a", "a", Action.Shell []⟩)], [("a", [])], [], ["a"]⟩ : TaskGraph).remaining) := by
  refine ⟨by decide, ?_⟩
  exact (C6_remaining_counts_working_order
    (⟨[("a", ⟨"a", "a", Action.Shell []⟩)], [("a", [])], [], ["a"]⟩ : TaskGraph)
    (⟨[("a", ⟨"a", "a", Action.Shell []⟩)], [("a", [])], [], []⟩ : TaskGraph)
    (⟨[("a", ⟨"a", "a", Action.Shell []⟩)], [("a", [])], [], ["a"]⟩ : TaskGraph)
    ⟨"a", "a", Action.Shell []⟩ PollOutcome.NotReady "z").2.1 (by decide)

/-! ### Claim C8 -/

/-- C8: `done(task_id)` inserts the id into the completion set and never fails
for any id; it is idempotent; and the completion set only ever grows under any
runtime operation. -/
theorem C8_done_unconditional_idempotent
    (g : TaskGraph) (id : String) (op : SchedOp) :
    id ∈ (g.markDone id).done ∧
    (g.markDone id).markDone id = g.markDone id ∧
    (∀ x ∈ g.done, x ∈ (g.markDone id).done) ∧
    (∀ x ∈ g.done, x ∈ (g.step op).done) := by
  have hmem : id ∈ setInsert id g.done := by
    unfold setInsert
    split
    · assumption
    · exact List.mem_cons_self _ _
  refine ⟨hmem, ?_, ?_, (step_frame g op).2.2.2⟩
  · show ({ g with done := setInsert id (setInsert id g.done) } : TaskGraph) =
      { g with done := setInsert id g.done }
    have : setInsert id (setInsert id g.done) = setInsert id g.done := by
      show (if id ∈ setInsert id g.done then setInsert id g.done
        else id :: setInsert id g.done) = setInsert id g.done
      simp [hmem]
    rw [this]
  · intro x hx
    unfold TaskGraph.markDone setInsert
    split
    · exact hx
    · exact List.mem_cons_of_mem _ hx

/-- Witness for C8 at a concrete input: reporting an unregistered id twice on
the empty graph— the id lands in the completion set, the second report is a
no-op, and an existing member survives a step. -/
theorem C8_done_unconditional_idempotent_witness :
    "w" ∈ ((⟨[], [], ["v"], []⟩ : TaskGraph).markDone "w").done ∧
    (((⟨[], [], ["v"], []⟩ : TaskGraph).markDone "w").markDone "w" =
      (⟨[], [], ["v"], []⟩ : TaskGraph).markDone "w") ∧
    "v" ∈ (((⟨[], [], ["v"], []⟩ : TaskGraph)).step (SchedOp.done "w")).done := by
  have h := C8_done_unconditional_idempotent (⟨[], [], ["v"], []⟩ : TaskGraph) "w"
    (SchedOp.done "w")
  exact ⟨h.1, h.2.1, h.2.2.2 "v" (by decide)⟩

/-! ### Claim C2 -/

/-- C2: the two-task cyclic declaration (a depends on b, b depends on a) has a
cyclic dependency map, yet `build()` does not fail with `CycleDetected`: the
sort is seeded only from tasks with an empty dependency list, the cycle leaves
no such seed, and `build` returns a graph with an empty working order, silently
dropping both tasks. This refutes the claim on the code. -/
theorem C2_unreachable_cycle_builds_ok :
    (¬ Acyclic [("a", ["b"]), ("b", ["a"])]) ∧
    (TaskGraphBuilder.new.applyOps cycOps).build =
      Except.ok ⟨[("a", tA), ("b", tB)], [("a", ["b"]), ("b", ["a"])], [], []⟩ := by
  constructor
  · intro h
    refine h "a" (Relation.TransGen.head (b := "b") ?_ (Relation.TransGen.single ?_))
    · show "b" ∈ (mapLookup "a" [("a", ["b"]), ("b", ["a"])]).getD []
      decide
    · show "a" ∈ (mapLookup "b" [("a", ["b"]), ("b", ["a"])]).getD []
      decide
  · decide

/-! ### Claim C3 -/

/-- C3: whenever at least one task in the current working order has all its
dependency ids in the completion set, poll returns `Ready t` for the first such
task scanning front-to-back (`List.find?`), that task's id is removed from the
working order in place, and a copy of the task is returned — with no condition
on `done` ever being called for it. -/
theorem C3_first_satisfied_wins
    (g : TaskGraph) (id : String) (t : Task)
    (hfind : g.ordered_tasks.find? (fun x => depsSatisfied g.edges g.done x) = some id)
    (htask : mapLookup id g.tasks = some t) :
    g.next = some (PollOutcome.Ready t,
      { g with ordered_tasks :=
          g.ordered_tasks.takeWhile (fun x => ! depsSatisfied g.edges g.done x) ++
          (g.ordered_tasks.dropWhile (fun x => ! depsSatisfied g.edges g.done x)).tail }) := by
  have hf := findReady_eq_find? hfind
  have hne : g.ordered_tasks.isEmpty = false := by
    cases ho : g.ordered_tasks with
    | nil => rw [ho] at hfind; simp at hfind
    | cons a l => simp
  simp [TaskGraph.next, hne, hf, htask]

/-- Witness for C3 at a concrete input: in `abMid` the only remaining task a
has its dependency b completed, so poll dispatches a and empties the working
order. -/
theorem C3_first_satisfied_wins_witness :
    (abMid.ordered_tasks.find? (fun x => depsSatisfied abMid.edges abMid.done x) =
      some "a") ∧
    (mapLookup "a" abMid.tasks = some tA) ∧
    abMid.next = some (PollOutcome.Ready tA,
      ⟨abMid.tasks, abMid.edges, abMid.done, []⟩) :=
  ⟨by decide, by decide, C3_first_satisfied_wins abMid "a" tA (by decide) (by decide)⟩

/-! ### Claim C7 -/

/-- Counterexample to C7 as stated: on the freshly built x-depends-on-y graph,
before any `done("y")` call, the first poll returns `Ready y` — not
`NotReady`. -/
theorem C7_first_poll_is_ready_y_counterexample :
    ((TaskGraphBuilder.new.applyOps xyOps).build = Except.ok xyGraph) ∧
    xyGraph.done = [] ∧
    xyGraph.next = some (PollOutcome.Ready tY, xyGraph1) ∧
    PollOutcome.Ready tY ≠ PollOutcome.NotReady := by
  refine ⟨by decide, by decide, by decide, by decide⟩

theorem xy_next_of_inv (g : TaskGraph) (h : XYInv g) :
    (g.ordered_tasks = ["y", "x"] ∧
      g.next = some (PollOutcome.Ready tY, { g with ordered_tasks := ["x"] })) ∨
    (g.ordered_tasks = ["x"] ∧ g.next = some (PollOutcome.NotReady, g)) := by
  obtain ⟨ht, he, hd, ho⟩ := h
  rcases ho with ho | ho
  · left
    refine ⟨ho, ?_⟩
    have hy : depsSatisfied g.edges g.done "y" = true := by
      simp [he, depsSatisfied, xyEdges, mapLookup]
    have hf : findReady g.edges g.done ["y", "x"] = some ("y", ["x"]) := by
      simp [findReady, hy]
    have hl : mapLookup "y" g.tasks = some tY := by rw [ht]; decide
    simp [TaskGraph.next, ho, hf, hl]
  · right
    refine ⟨ho, ?_⟩
    have hx : depsSatisfied g.edges g.done "x" = false := by
      simp [he, depsSatisfied, xyEdges, mapLookup, hd]
    have hf : findReady g.edges g.done ["x"] = none := by
      simp [findReady, hx]
    simp [TaskGraph.next, ho, hf]

theorem xy_step_inv (g : TaskGraph) (op : SchedOp) (h : XYInv g)
    (hop : op ≠ SchedOp.done "y") : XYInv (g.step op) := by
  cases op with
  | poll =>
    rcases xy_next_of_inv g h with ⟨ho, hn⟩ | ⟨ho, hn⟩
    · simp only [TaskGraph.step, hn]
      exact ⟨h.1, h.2.1, h.2.2.1, Or.inr rfl⟩
    · simp only [TaskGraph.step, hn]
      exact h
  | done id =>
    have hid : id ≠ "y" := by
      intro hx; exact hop (by rw [hx])
    refine ⟨h.1, h.2.1, ?_, h.2.2.2⟩
    show "y" ∉ setInsert id g.done
    unfold setInsert
    split
    · exact h.2.2.1
    · intro hmem
      rcases List.mem_cons.mp hmem with hxy | hxy
      · exact hid hxy.symm
      · exact h.2.2.1 hxy

theorem xy_run_inv (sops : List SchedOp) (g : TaskGraph) (h : XYInv g)
    (hno : SchedOp.done "y" ∉ sops) : XYInv (g.run sops) := by
  induction sops generalizing g with
  | nil => exact h
  | cons op rest ih =>
    have h1 : op ≠ SchedOp.done "y" := by
      intro hx; exact hno (hx ▸ List.mem_cons_self _ _)
    have h2 : SchedOp.done "y" ∉ rest := fun hx => hno (List.mem_cons_of_mem _ hx)
    exact ih (g.step op) (xy_step_inv g op h h1) h2

/-- C7 (amended): on the x-depends-on-y graph, before `done("y")` is called a
poll never returns `Exhausted` and never returns `Ready x`; it returns
`Ready y` while y is still in the working order, and `NotReady` afterwards. -/
theorem C7_before_done_y_never_ready_x
    (sops : List SchedOp) (o : PollOutcome) (g' : TaskGraph)
    (hno : SchedOp.done "y" ∉ sops)
    (hnext : (xyGraph.run sops).next = some (o, g')) :
    (o = PollOutcome.Ready tY ∨ o = PollOutcome.NotReady) ∧
    o ≠ PollOutcome.Exhausted ∧ o ≠ PollOutcome.Ready tX := by
  have hinv : XYInv (xyGraph.run sops) :=
    xy_run_inv sops xyGraph ⟨rfl, rfl, by decide, Or.inl rfl⟩ hno
  rcases xy_next_of_inv _ hinv with ⟨_, hn⟩ | ⟨_, hn⟩
  · have := hnext.symm.trans hn
    simp at this
    rw [this.1]
    exact ⟨Or.inl rfl, by decide, by decide⟩
  · have := hnext.symm.trans hn
    simp at this
    rw [this.1]
    exact ⟨Or.inr rfl, by decide, by decide⟩

/-- Witness for the amended C7 at a concrete input: after the poll that
dispatches y and with no `done("y")`, the next poll observes `NotReady`. -/
theorem C7_before_done_y_never_ready_x_witness :
    (SchedOp.done "y" ∉ [SchedOp.poll]) ∧
    ((xyGraph.run [SchedOp.poll]).next = some (PollOutcome.NotReady, xyGraph1)) ∧
    ((PollOutcome.NotReady = PollOutcome.Ready tY ∨
        PollOutcome.NotReady = PollOutcome.NotReady) ∧
      PollOutcome.NotReady ≠ PollOutcome.Exhausted ∧
      PollOutcome.NotReady ≠ PollOutcome.Ready tX) := by
  refine ⟨by decide, by decide, ?_⟩
  exact C7_before_done_y_never_ready_x [SchedOp.poll] PollOutcome.NotReady xyGraph1
    (by decide) (by decide)

/-! ### Claim C10 -/

/-- Ids dispatched by any run are drawn from the current working order. -/
theorem readyIds_sub_ordered (sops : List SchedOp) (g : TaskGraph)
    (hcons : ∀ p ∈ g.tasks, p.2.id = p.1) :
    ∀ x ∈ readyIds (g.runTrace sops), x ∈ g.ordered_tasks := by
  induction sops generalizing g with
  | nil => intro x hx; simp [TaskGraph.runTrace, readyIds] at hx
  | cons op rest ih =>
    intro x hx
    cases op with
    | poll =>
      cases hn : g.next with
      | none => simp [TaskGraph.runTrace, hn, readyIds] at hx
      | some pr =>
        cases pr with
        | mk o g' =>
          obtain ⟨hT, _, _, hsub⟩ := next_frame hn
          have hcons' : ∀ p ∈ g'.tasks, p.2.id = p.1 := by rw [hT]; exact hcons
          simp only [TaskGraph.runTrace, hn] at hx
          cases o with
          | Ready t =>
            simp only [readyIds] at hx
            rcases List.mem_cons.mp hx with hxid | hxtail
            · obtain ⟨id, rest', hfr, hlook, _⟩ := next_ready_elim hn
              have htid : t.id = id := hcons (id, t) (mapLookup_mem hlook)
              obtain ⟨l₁, l₂, hl, _, _⟩ := findReady_split hfr
              rw [hxid, htid, hl]
              simp
            · exact hsub.subset (ih g' hcons' x hxtail)
          | NotReady => exact hsub.subset (ih g' hcons' x hx)
          | Exhausted => exact hsub.subset (ih g' hcons' x hx)
    | done id =>
      simp only [TaskGraph.runTrace] at hx
      exact ih (g.markDone id) hcons x hx

/-- C10: on a TaskGraph whose working order has no duplicate ids (and whose
task map stores each task under its own id, as every built graph does), every
task id appears inside a `Ready` outcome at most once across any sequence of
poll and done calls. -/
theorem C10_each_task_dispatched_at_most_once
    (sops : List SchedOp) (g : TaskGraph)
    (hnodup : g.ordered_tasks.Nodup)
    (hcons : ∀ p ∈ g.tasks, p.2.id = p.1) :
    (readyIds (g.runTrace sops)).Nodup := by
  induction sops generalizing g with
  | nil => simp [TaskGraph.runTrace, readyIds]
  | cons op rest ih =>
    cases op with
    | poll =>
      cases hn : g.next with
      | none => simp [TaskGraph.runTrace, hn, readyIds]
      | some pr =>
        cases pr with
        | mk o g' =>
          obtain ⟨hT, _, _, hsub⟩ := next_frame hn
          have hcons' : ∀ p ∈ g'.tasks, p.2.id = p.1 := by rw [hT]; exact hcons
          have hnodup' : g'.ordered_tasks.Nodup := hnodup.sublist hsub
          simp only [TaskGraph.runTrace, hn]
          cases o with
          | Ready t =>
            simp only [readyIds]
            refine List.Nodup.cons ?_ (ih g' hnodup' hcons')
            intro hmem
            have hin : t.id ∈ g'.ordered_tasks :=
              readyIds_sub_ordered rest g' hcons' t.id hmem
            obtain ⟨id, rest', hfr, hlook, hg'⟩ := next_ready_elim hn
            have htid : t.id = id := hcons (id, t) (mapLookup_mem hlook)
            obtain ⟨l₁, l₂, hl, hrest, _⟩ := findReady_split hfr
            have hid_not : id ∉ l₁ ++ l₂ := by
              have := hl ▸ hnodup
              intro hc
              rcases List.mem_append.mp hc with hc | hc
              · exact (List.nodup_append.mp (by simpa using this)).2.2 hc
                  (List.mem_cons_self _ _)
              · exact (List.nodup_cons.mp
                  ((List.nodup_append.mp (by simpa using this)).2.1)).1 hc
            rw [hg'] at hin
            simp only at hin
            rw [hrest] at hin
            rw [htid] at hin
            exact hid_not hin
          | NotReady => exact ih g' hnodup' hcons'
          | Exhausted => exact ih g' hnodup' hcons'
    | done id =>
      simp only [TaskGraph.runTrace]
      exact ih (g.markDone id) hnodup hcons

/-- Witness for C10 at a concrete input: running `abGraph` dispatches b then a,
and the dispatched ids `["b", "a"]` are distinct. -/
theorem C10_each_task_dispatched_at_most_once_witness :
    abGraph.ordered_tasks.Nodup ∧
    (∀ p ∈ abGraph.tasks, p.2.id = p.1) ∧
    readyIds (abGraph.runTrace [SchedOp.poll, SchedOp.done "b", SchedOp.poll]) =
      ["b", "a"] ∧
    (readyIds (abGraph.runTrace
      [SchedOp.poll, SchedOp.done "b", SchedOp.poll])).Nodup := by
  refine ⟨by decide, by decide, by decide, ?_⟩
  exact C10_each_task_dispatched_at_most_once
    [SchedOp.poll, SchedOp.done "b", SchedOp.poll] abGraph (by decide) (by decide)

/-! ### Post-conditions of the depth-first sort -/

theorem visit_succ_eq (succ : String → List String) (fuel : Nat) (node : String)
    (st : SortState) :
    visit succ (fuel + 1) node st =
      if node ∈ st.marked then some (Except.ok st)
      else if node ∈ st.temp then some (Except.error node)
      else
        match foldVisit (visit succ fuel) (succ node)
            { st with temp := node :: st.temp } with
        | none => none
        | some (Except.error e) => some (Except.error e)
        | some (Except.ok st') =>
          some (Except.ok
            { marked := node :: st'.marked
              temp := st'.temp.erase node
              sorted := node :: st'.sorted }) := rfl

theorem foldVisit_nil (f : String → SortState → Option (Except String SortState))
    (st : SortState) : foldVisit f [] st = some (Except.ok st) := rfl

theorem foldl_visitStep_none (f : String → SortState → Option (Except String SortState))
    (ns : List String) :
    ns.foldl (fun acc n => visitStep (fun m s => f m s) acc n) none = none := by
  induction ns with
  | nil => rfl
  | cons n ns ih => exact ih

theorem foldl_visitStep_error (f : String → SortState → Option (Except String SortState))
    (ns : List String) (e : String) :
    ns.foldl (fun acc n => visitStep (fun m s => f m s) acc n) (some (Except.error e)) =
      some (Except.error e) := by
  induction ns with
  | nil => rfl
  | cons n ns ih => exact ih

theorem foldVisit_cons (f : String → SortState → Option (Except String SortState))
    (n : String) (ns : List String) (st : SortState) :
    foldVisit f (n :: ns) st =
      match f n st with
      | some (Except.ok s) => foldVisit f ns s
      | some (Except.error e) => some (Except.error e)
      | none => none := by
  unfold foldVisit
  rw [List.foldl_cons]
  cases h : f n st with
  | none =>
    simp only [visitStep, h]
    exact foldl_visitStep_none f ns
  | some r =>
    cases r with
    | error e =>
      simp only [visitStep, h]
      exact foldl_visitStep_error f ns e
    | ok s =>
      simp only [visitStep, h]

theorem visit_fold_post (succ : String → List String) : ∀ fuel : Nat,
    (∀ node st st', visit succ fuel node st = some (Except.ok st') →
      VPost succ node st st') ∧
    (∀ ns st st', foldVisit (visit succ fuel) ns st = some (Except.ok st') →
      QPost succ ns st st') := by
  have qnil : ∀ (f : String → SortState → Option (Except String SortState)) st st',
      foldVisit f [] st = some (Except.ok st') → QPost succ [] st st' := by
    intro f st st' h
    rw [foldVisit_nil] at h
    have : st = st' := by simpa using h
    subst this
    exact ⟨[], rfl, rfl, rfl, by simp, by simp, by simp, by simp, List.nodup_nil⟩
  intro fuel
  induction fuel with
  | zero =>
    constructor
    · intro node st st' h
      exact absurd h (by simp [visit])
    · intro ns
      cases ns with
      | nil => exact qnil _
      | cons n ns =>
        intro st st' h
        rw [foldVisit_cons] at h
        have hz : visit succ 0 n st = none := rfl
        rw [hz] at h
        simp at h
  | succ fuel ihf =>
    have hv : ∀ node st st', visit succ (fuel + 1) node st = some (Except.ok st') →
        VPost succ node st st' := by
      intro node st st' h
      rw [visit_succ_eq] at h
      by_cases hm : node ∈ st.marked
      · rw [if_pos hm] at h
        have : st = st' := by simpa using h
        subst this
        exact ⟨[], rfl, rfl, rfl, hm, by simp, by simp, by simp, List.nodup_nil⟩
      · rw [if_neg hm] at h
        by_cases ht : node ∈ st.temp
        · rw [if_pos ht] at h
          simp at h
        · rw [if_neg ht] at h
          cases hfold : foldVisit (visit succ fuel) (succ node)
              { st with temp := node :: st.temp } with
          | none => rw [hfold] at h; simp at h
          | some r =>
            cases r with
            | error e => rw [hfold] at h; simp at h
            | ok stc =>
              rw [hfold] at h
              have hst' : st' =
                  { marked := node :: stc.marked, temp := stc.temp.erase node,
                    sorted := node :: stc.sorted } := by
                have := h
                simp at this
                exact this.symm
              subst hst'
              obtain ⟨pre, hm1, hs1, ht1, _, horig, hnt, hnm, hnd⟩ :=
                ihf.2 (succ node) _ _ hfold
              refine ⟨node :: pre, ?_, ?_, ?_, ?_, ?_, ?_, ?_, ?_⟩
              · show node :: stc.marked = node :: pre ++ st.marked
                rw [hm1]; rfl
              · show node :: stc.sorted = node :: pre ++ st.sorted
                rw [hs1]; rfl
              · show stc.temp.erase node = st.temp
                rw [ht1]
                exact List.erase_cons_head node st.temp
              · exact List.mem_cons_self _ _
              · intro x hx
                rcases List.mem_cons.mp hx with hx | hx
                · exact Or.inl hx
                · rcases horig x hx with hx' | hx'
                  · exact Or.inr ⟨node, hx'⟩
                  · exact Or.inr hx'
              · intro x hx
                rcases List.mem_cons.mp hx with hx | hx
                · exact hx ▸ ht
                · exact fun hc => hnt x hx (List.mem_cons_of_mem _ hc)
              · intro x hx
                rcases List.mem_cons.mp hx with hx | hx
                · exact hx ▸ hm
                · exact hnm x hx
              · refine List.nodup_cons.mpr ⟨?_, hnd⟩
                intro hc
                exact hnt node hc (List.mem_cons_self _ _)
    refine ⟨hv, ?_⟩
    intro ns
    induction ns with
    | nil => exact qnil _
    | cons n ns ihn =>
      intro st st' h
      rw [foldVisit_cons] at h
      cases hv1 : visit succ (fuel + 1) n st with
      | none => rw [hv1] at h; simp at h
      | some r =>
        cases r with
        | error e => rw [hv1] at h; simp at h
        | ok st₁ =>
          rw [hv1] at h
          obtain ⟨pre₁, a1, a2, a3, a4, a5, a6, a7, a8⟩ := hv n st st₁ hv1
          obtain ⟨pre₂, b1, b2, b3, b4, b5, b6, b7, b8⟩ := ihn st₁ st' h
          refine ⟨pre₂ ++ pre₁, ?_, ?_, ?_, ?_, ?_, ?_, ?_, ?_⟩
          · rw [b1, a1, List.append_assoc]
          · rw [b2, a2, List.append_assoc]
          · rw [b3, a3]
          · intro m hm
            rcases List.mem_cons.mp hm with hm | hm
            · subst hm
              rw [b1]
              exact List.mem_append_right _ a4
            · exact b4 m hm
          · intro x hx
            rcases List.mem_append.mp hx with hx | hx
            · rcases b5 x hx with hx' | hx'
              · exact Or.inl (List.mem_cons_of_mem _ hx')
              · exact Or.inr hx'
            · rcases a5 x hx with hx' | hx'
              · exact Or.inl (hx' ▸ List.mem_cons_self _ _)
              · exact Or.inr hx'
          · intro x hx
            rcases List.mem_append.mp hx with hx | hx
            · exact fun hc => b6 x hx (a3 ▸ hc)
            · exact a6 x hx
          · intro x hx
            rcases List.mem_append.mp hx with hx | hx
            · intro hc
              exact b7 x hx (a1 ▸ List.mem_append_right _ hc)
            · exact a7 x hx
          · refine List.Nodup.append b8 a8 ?_
            intro x hx2 hx1
            exact b7 x hx2 (a1 ▸ List.mem_append_left _ hx1)

theorem visit_fold_good (succ : String → List String) : ∀ fuel : Nat,
    (∀ node st st', visit succ fuel node st = some (Except.ok st') →
      GoodSt succ st → GoodSt succ st') ∧
    (∀ ns st st', foldVisit (visit succ fuel) ns st = some (Except.ok st') →
      GoodSt succ st → GoodSt succ st') := by
  have qnil : ∀ (f : String → SortState → Option (Except String SortState)) st st',
      foldVisit f [] st = some (Except.ok st') → GoodSt succ st → GoodSt succ st' := by
    intro f st st' h hg
    rw [foldVisit_nil] at h
    have : st = st' := by simpa using h
    exact this ▸ hg
  intro fuel
  induction fuel with
  | zero =>
    constructor
    · intro node st st' h
      exact absurd h (by simp [visit])
    · intro ns
      cases ns with
      | nil => exact qnil _
      | cons n ns =>
        intro st st' h
        rw [foldVisit_cons] at h
        have hz : visit succ 0 n st = none := rfl
        rw [hz] at h
        simp at h
  | succ fuel ihf =>
    have hv : ∀ node st st', visit succ (fuel + 1) node st = some (Except.ok st') →
        GoodSt succ st → GoodSt succ st' := by
      intro node st st' h hg
      rw [visit_succ_eq] at h
      by_cases hm : node ∈ st.marked
      · rw [if_pos hm] at h
        have : st = st' := by simpa using h
        exact this ▸ hg
      · rw [if_neg hm] at h
        by_cases ht : node ∈ st.temp
        · rw [if_pos ht] at h
          simp at h
        · rw [if_neg ht] at h
          cases hfold : foldVisit (visit succ fuel) (succ node)
              { st with temp := node :: st.temp } with
          | none => rw [hfold] at h; simp at h
          | some r =>
            cases r with
            | error e => rw [hfold] at h; simp at h
            | ok stc =>
              rw [hfold] at h
              have hst' : st' =
                  { marked := node :: stc.marked, temp := stc.temp.erase node,
                    sorted := node :: stc.sorted } := by
                have := h
                simp at this
                exact this.symm
              subst hst'
              have hgc : GoodSt succ stc :=
                ihf.2 (succ node) _ _ hfold
                  ⟨hg.1, hg.2.1, hg.2.2⟩
              obtain ⟨pre, hm1, hs1, _, hns, _, hnt, hnm, _⟩ :=
                (visit_fold_post succ fuel).2 (succ node) _ _ hfold
              have hnode_not_sorted : node ∉ stc.sorted := by
                intro hc
                have hcm : node ∈ stc.marked := (hgc.1 node).mpr hc
                rw [hm1] at hcm
                rcases List.mem_append.mp hcm with hc' | hc'
                · exact hnt node hc' (List.mem_cons_self _ _)
                · exact hm hc'
              refine ⟨?_, ?_, ?_⟩
              · intro x
                show x ∈ node :: stc.marked ↔ x ∈ node :: stc.sorted
                constructor
                · intro hx
                  rcases List.mem_cons.mp hx with hx | hx
                  · exact hx ▸ List.mem_cons_self _ _
                  · exact List.mem_cons_of_mem _ ((hgc.1 x).mp hx)
                · intro hx
                  rcases List.mem_cons.mp hx with hx | hx
                  · exact hx ▸ List.mem_cons_self _ _
                  · exact List.mem_cons_of_mem _ ((hgc.1 x).mpr hx)
              · intro l₁ x l₂ hsplit m hmsucc
                show m ∈ l₂
                cases l₁ with
                | nil =>
                  have hx : node = x := by
                    have := congrArg (fun l => l.headI) hsplit
                    simpa using this
                  have hl₂ : l₂ = stc.sorted := by
                    have := congrArg (fun l => l.tail) hsplit
                    simpa using this.symm
                  subst hx
                  rw [hl₂]
                  have hmm : m ∈ stc.marked := hns m hmsucc
                  exact (hgc.1 m).mp hmm
                | cons a l₁' =>
                  have ha : node = a ∧ stc.sorted = l₁' ++ x :: l₂ := by
                    have h1 := congrArg (fun l => l.headI) hsplit
                    have h2 := congrArg (fun l => l.tail) hsplit
                    simp at h1 h2
                    exact ⟨h1, h2⟩
                  exact hgc.2.1 l₁' x l₂ ha.2 m hmsucc
              · refine List.nodup_cons.mpr ⟨hnode_not_sorted, hgc.2.2⟩
    refine ⟨hv, ?_⟩
    intro ns
    induction ns with
    | nil => exact qnil _
    | cons n ns ihn =>
      intro st st' h hg
      rw [foldVisit_cons] at h
      cases hv1 : visit succ (fuel + 1) n st with
      | none => rw [hv1] at h; simp at h
      | some r =>
        cases r with
        | error e => rw [hv1] at h; simp at h
        | ok st₁ =>
          rw [hv1] at h
          exact ihn st₁ st' h (hv n st st₁ hv1 hg)

/-! ### Success of the sort: enough fuel, and no error on acyclic input -/

theorem visit_fold_ok (succ : String → List String) (K : List String)
    (hsucc : ∀ x y, y ∈ succ x → y ∈ K)
    (hacyc : ∀ x, ¬ Relation.TransGen (fun a b => b ∈ succ a) x x) : ∀ fuel : Nat,
    (∀ node st, node ∈ K → (∀ m ∈ st.temp, m ∈ K) → st.temp.Nodup →
      (∀ m ∈ st.temp, Relation.TransGen (fun a b => b ∈ succ a) m node) →
      K.length + 1 ≤ fuel + st.temp.length →
      ∃ st', visit succ fuel node st = some (Except.ok st')) ∧
    (∀ ns st, (∀ n ∈ ns, n ∈ K) → (∀ m ∈ st.temp, m ∈ K) → st.temp.Nodup →
      (∀ m ∈ st.temp, ∀ n ∈ ns, Relation.TransGen (fun a b => b ∈ succ a) m n) →
      K.length + 1 ≤ fuel + st.temp.length →
      ∃ st', foldVisit (visit succ fuel) ns st = some (Except.ok st')) := by
  have hlen : ∀ st : SortState, (∀ m ∈ st.temp, m ∈ K) → st.temp.Nodup →
      st.temp.length ≤ K.length := by
    intro st hsub hnd
    exact (List.subperm_of_subset hnd hsub).length_le
  intro fuel
  induction fuel with
  | zero =>
    constructor
    · intro node st _ htK htnd _ hfuel
      exact absurd hfuel (by have := hlen st htK htnd; omega)
    · intro ns st _ htK htnd _ hfuel
      cases ns with
      | nil => exact ⟨st, foldVisit_nil _ _⟩
      | cons n ns =>
        exact absurd hfuel (by have := hlen st htK htnd; omega)
  | succ fuel ihf =>
    have hv : ∀ node st, node ∈ K → (∀ m ∈ st.temp, m ∈ K) → st.temp.Nodup →
        (∀ m ∈ st.temp, Relation.TransGen (fun a b => b ∈ succ a) m node) →
        K.length + 1 ≤ (fuel + 1) + st.temp.length →
        ∃ st', visit succ (fuel + 1) node st = some (Except.ok st') := by
      intro node st hnode htK htnd hanc hfuel
      by_cases hm : node ∈ st.marked
      · exact ⟨st, by rw [visit_succ_eq, if_pos hm]⟩
      · by_cases ht : node ∈ st.temp
        · exact absurd (hanc node ht) (hacyc node)
        · obtain ⟨stc, hfold⟩ := ihf.2 (succ node) { st with temp := node :: st.temp }
            (fun n hn => hsucc node n hn)
            (by
              intro m hm'
              rcases List.mem_cons.mp hm' with hm' | hm'
              · exact hm' ▸ hnode
              · exact htK m hm')
            (List.nodup_cons.mpr ⟨ht, htnd⟩)
            (by
              intro m hm' n hn
              rcases List.mem_cons.mp hm' with hm' | hm'
              · exact hm' ▸ Relation.TransGen.single hn
              · exact Relation.TransGen.tail (hanc m hm') hn)
            (by simp only [List.length_cons]; omega)
          exact ⟨_, by rw [visit_succ_eq, if_neg hm, if_neg ht, hfold]⟩
    refine ⟨hv, ?_⟩
    intro ns
    induction ns with
    | nil => intro st _ _ _ _ _; exact ⟨st, foldVisit_nil _ _⟩
    | cons n ns ihn =>
      intro st hns htK htnd hchain hfuel
      obtain ⟨st₁, h1⟩ := hv n st (hns n (List.mem_cons_self _ _)) htK htnd
        (fun m hm => hchain m hm n (List.mem_cons_self _ _)) hfuel
      obtain ⟨_, _, _, a3, _, _, _, _, _⟩ :=
        (visit_fold_post succ (fuel + 1)).1 n st st₁ h1
      obtain ⟨st', h2⟩ := ihn st₁
        (fun m hm => hns m (List.mem_cons_of_mem _ hm))
        (by rw [a3]; exact htK)
        (by rw [a3]; exact htnd)
        (by
          rw [a3]
          intro m hm n' hn'
          exact hchain m hm n' (List.mem_cons_of_mem _ hn'))
        (by rw [a3]; exact hfuel)
      refine ⟨st', ?_⟩
      rw [foldVisit_cons, h1]
      exact h2

/-! ### The top-level loop over the seeds -/

theorem sortLoop_ok (succ : String → List String) (K : List String)
    (hsucc : ∀ x y, y ∈ succ x → y ∈ K)
    (hacyc : ∀ x, ¬ Relation.TransGen (fun a b => b ∈ succ a) x x)
    (fuel : Nat) (hfuel : K.length + 1 ≤ fuel) :
    ∀ (roots : List String) (st : SortState), (∀ r ∈ roots, r ∈ K) → st.temp = [] →
    ∃ st', sortLoop succ fuel roots st = some (Except.ok st') := by
  intro roots
  induction roots with
  | nil => intro st _ _; exact ⟨st, rfl⟩
  | cons r rs ih =>
    intro st hr htemp
    obtain ⟨st₁, h1⟩ := (visit_fold_ok succ K hsucc hacyc fuel).1 r st
      (hr r (List.mem_cons_self _ _))
      (by rw [htemp]; intro m hm; simp at hm)
      (by rw [htemp]; exact List.nodup_nil)
      (by rw [htemp]; intro m hm; simp at hm)
      (by rw [htemp]; simpa using hfuel)
    obtain ⟨_, _, _, a3, _, _, _, _, _⟩ := (visit_fold_post succ fuel).1 r st st₁ h1
    obtain ⟨st', h2⟩ := ih st₁ (fun x hx => hr x (List.mem_cons_of_mem _ hx))
      (a3.trans htemp)
    refine ⟨st', ?_⟩
    show sortLoop succ fuel (r :: rs) st = some (Except.ok st')
    simp only [sortLoop]
    rw [h1]
    exact h2

theorem sortLoop_post (succ : String → List String) (fuel : Nat) :
    ∀ (roots : List String) (st st' : SortState),
      sortLoop succ fuel roots st = some (Except.ok st') →
      QPost succ roots st st' := by
  intro roots
  induction roots with
  | nil =>
    intro st st' h
    have : st = st' := by simpa [sortLoop] using h
    subst this
    exact ⟨[], rfl, rfl, rfl, by simp, by simp, by simp, by simp, List.nodup_nil⟩
  | cons r rs ih =>
    intro st st' h
    simp only [sortLoop] at h
    cases hv1 : visit succ fuel r st with
    | none => rw [hv1] at h; simp at h
    | some res =>
      cases res with
      | error e => rw [hv1] at h; simp at h
      | ok st₁ =>
        rw [hv1] at h
        obtain ⟨pre₁, a1, a2, a3, a4, a5, a6, a7, a8⟩ :=
          (visit_fold_post succ fuel).1 r st st₁ hv1
        obtain ⟨pre₂, b1, b2, b3, b4, b5, b6, b7, b8⟩ := ih st₁ st' h
        refine ⟨pre₂ ++ pre₁, ?_, ?_, ?_, ?_, ?_, ?_, ?_, ?_⟩
        · rw [b1, a1, List.append_assoc]
        · rw [b2, a2, List.append_assoc]
        · rw [b3, a3]
        · intro m hm
          rcases List.mem_cons.mp hm with hm | hm
          · subst hm
            rw [b1]
            exact List.mem_append_right _ a4
          · exact b4 m hm
        · intro x hx
          rcases List.mem_append.mp hx with hx | hx
          · rcases b5 x hx with hx' | hx'
            · exact Or.inl (List.mem_cons_of_mem _ hx')
            · exact Or.inr hx'
          · rcases a5 x hx with hx' | hx'
            · exact Or.inl (hx' ▸ List.mem_cons_self _ _)
            · exact Or.inr hx'
        · intro x hx
          rcases List.mem_append.mp hx with hx | hx
          · exact fun hc => b6 x hx (a3 ▸ hc)
          · exact a6 x hx
        · intro x hx
          rcases List.mem_append.mp hx with hx | hx
          · intro hc
            exact b7 x hx (a1 ▸ List.mem_append_right _ hc)
          · exact a7 x hx
        · refine List.Nodup.append b8 a8 ?_
          intro x hx2 hx1
          exact b7 x hx2 (a1 ▸ List.mem_append_left _ hx1)

theorem sortLoop_good (succ : String → List String) (fuel : Nat) :
    ∀ (roots : List String) (st st' : SortState),
      sortLoop succ fuel roots st = some (Except.ok st') →
      GoodSt succ st → GoodSt succ st' := by
  intro roots
  induction roots with
  | nil =>
    intro st st' h hg
    have : st = st' := by simpa [sortLoop] using h
    exact this ▸ hg
  | cons r rs ih =>
    intro st st' h hg
    simp only [sortLoop] at h
    cases hv1 : visit succ fuel r st with
    | none => rw [hv1] at h; simp at h
    | some res =>
      cases res with
      | error e => rw [hv1] at h; simp at h
      | ok st₁ =>
        rw [hv1] at h
        exact ih st₁ st' h ((visit_fold_good succ fuel).1 r st st₁ hv1 hg)

/-! ### Bridging the sort and the builder's dependency map -/

theorem mem_successorsOf {E : List (String × List String)} {a y : String} :
    y ∈ successorsOf E a ↔ ∃ p ∈ E, p.1 = y ∧ a ∈ p.2 := by
  unfold successorsOf
  simp only [List.mem_map, List.mem_filter, decide_eq_true_eq]
  constructor
  · rintro ⟨p, ⟨hp, ha⟩, hy⟩
    exact ⟨p, hp, hy, ha⟩
  · rintro ⟨p, hp, hy, ha⟩
    exact ⟨p, ⟨hp, ha⟩, hy⟩

theorem successorsOf_mem_keys {E : List (String × List String)} {a y : String} :
    y ∈ successorsOf E a → y ∈ E.map Prod.fst := by
  intro h
  obtain ⟨p, hp, hy, _⟩ := mem_successorsOf.mp h
  exact List.mem_map.mpr ⟨p, hp, hy⟩

theorem start_edges_mem_keys {E : List (String × List String)} {r : String} :
    r ∈ start_edges E → r ∈ E.map Prod.fst := by
  intro h
  unfold start_edges at h
  obtain ⟨p, hp, hr⟩ := List.mem_map.mp h
  exact List.mem_map.mpr ⟨p, List.mem_of_mem_filter hp, hr⟩

theorem mem_start_edges_of_lookup_nil {E : List (String × List String)} {u : String} :
    mapLookup u E = some [] → u ∈ start_edges E := by
  intro h
  have hmem : (u, ([] : List String)) ∈ E := mapLookup_mem h
  unfold start_edges
  refine List.mem_map.mpr ⟨(u, []), ?_, rfl⟩
  exact List.mem_filter.mpr ⟨hmem, by simp⟩

theorem mapLookup_isSome_of_mem_keys {α : Type} {E : List (String × α)} {k : String} :
    k ∈ E.map Prod.fst → ∃ v, mapLookup k E = some v := by
  induction E with
  | nil => intro h; simp at h
  | cons p E ih =>
    intro h
    cases p with
    | mk k' v' =>
      by_cases hk : k = k'
      · exact ⟨v', by simp [mapLookup, hk]⟩
      · rw [List.map_cons] at h
        rcases List.mem_cons.mp h with h' | h'
        · exact absurd h' hk
        · obtain ⟨v, hv⟩ := ih h'
          exact ⟨v, by simp [mapLookup, hk, hv]⟩

theorem mapLookup_of_mem_nodup {α : Type} {E : List (String × α)} {k : String} {v : α} :
    (k, v) ∈ E → (E.map Prod.fst).Nodup → mapLookup k E = some v := by
  induction E with
  | nil => intro h _; simp at h
  | cons p E ih =>
    intro h hnd
    cases p with
    | mk k' v' =>
      rw [List.map_cons] at hnd
      obtain ⟨hnd1, hnd2⟩ := List.nodup_cons.mp hnd
      rcases List.mem_cons.mp h with h' | h'
      · have h1 : k = k' := congrArg Prod.fst h'
        have h2 : v = v' := congrArg Prod.snd h'
        simp [mapLookup, h1, h2]
      · have hk : k ≠ k' := by
          intro hc
          exact hnd1 (hc ▸ List.mem_map.mpr ⟨(k, v), h', rfl⟩)
        have := ih h' hnd2
        simp [mapLookup, hk, this]

/-- In a map with distinct keys, cycles along the dependents relation are
cycles along the dependency relation, so an acyclic dependency map admits no
successor-relation cycle. -/
theorem acyclic_no_succ_cycle {E : List (String × List String)}
    (hnd : (E.map Prod.fst).Nodup) (h : Acyclic E) :
    ∀ x, ¬ Relation.TransGen (fun a b => b ∈ successorsOf E a) x x := by
  intro x hx
  have hmono : ∀ a b, b ∈ successorsOf E a → Function.swap (depOn E) a b := by
    intro a b hab
    obtain ⟨p, hp, hb, ha⟩ := mem_successorsOf.mp hab
    show depOn E b a
    unfold depOn
    have : mapLookup b E = some p.2 := by
      have : (b, p.2) ∈ E := by
        have : p = (b, p.2) := by
          cases p; simp at hb; simp [hb]
        exact this ▸ hp
      exact mapLookup_of_mem_nodup this hnd
    rw [this]
    simpa using ha
  have : Relation.TransGen (Function.swap (depOn E)) x x := hx.mono hmono
  exact h x (Relation.transGen_swap.mp this)

/-! ### Builder invariants reachable through the public interface -/

theorem entryOrNil_keys (k : String) : ∀ m : List (String × List String),
    ((entryOrNil k m).map Prod.fst = m.map Prod.fst ∧ k ∈ m.map Prod.fst) ∨
    ((entryOrNil k m).map Prod.fst = m.map Prod.fst ++ [k] ∧ k ∉ m.map Prod.fst) := by
  intro m
  induction m with
  | nil => right; simp [entryOrNil]
  | cons p m ih =>
    cases p with
    | mk k' ds =>
      by_cases hk : k = k'
      · left
        constructor
        · simp [entryOrNil, hk]
        · simp [hk]
      · rcases ih with ⟨h1, h2⟩ | ⟨h1, h2⟩
        · left
          constructor
          · simp [entryOrNil, hk, h1]
          · simp [h2]
        · right
          constructor
          · simp [entryOrNil, hk, h1]
          · simp [hk, h2]

theorem entryPush_keys (k d : String) : ∀ m : List (String × List String),
    ((entryPush k d m).map Prod.fst = m.map Prod.fst ∧ k ∈ m.map Prod.fst) ∨
    ((entryPush k d m).map Prod.fst = m.map Prod.fst ++ [k] ∧ k ∉ m.map Prod.fst) := by
  intro m
  induction m with
  | nil => right; simp [entryPush]
  | cons p m ih =>
    cases p with
    | mk k' ds =>
      by_cases hk : k = k'
      · left
        constructor
        · simp [entryPush, hk]
        · simp [hk]
      · rcases ih with ⟨h1, h2⟩ | ⟨h1, h2⟩
        · left
          constructor
          · simp [entryPush, hk, h1]
          · simp [h2]
        · right
          constructor
          · simp [entryPush, hk, h1]
          · simp [hk, h2]

theorem mapInsert_keys {α : Type} (k : String) (v : α) : ∀ m : List (String × α),
    ((mapInsert k v m).map Prod.fst = m.map Prod.fst ∧ k ∈ m.map Prod.fst) ∨
    ((mapInsert k v m).map Prod.fst = m.map Prod.fst ++ [k] ∧ k ∉ m.map Prod.fst) := by
  intro m
  induction m with
  | nil => right; simp [mapInsert]
  | cons p m ih =>
    cases p with
    | mk k' v' =>
      by_cases hk : k = k'
      · left
        constructor
        · simp [mapInsert, hk]
        · simp [hk]
      · rcases ih with ⟨h1, h2⟩ | ⟨h1, h2⟩
        · left
          constructor
          · simp [mapInsert, hk, h1]
          · simp [h2]
        · right
          constructor
          · simp [mapInsert, hk, h1]
          · simp [hk, h2]

theorem nodup_of_keys_disj {l : List String} {k : String}
    (h : l.Nodup) (hk : k ∉ l) : (l ++ [k]).Nodup := by
  refine List.Nodup.append h (List.nodup_singleton k) ?_
  intro x hx hxk
  simp at hxk
  exact hk (hxk ▸ hx)

/-- The dependency-map keys of any builder assembled through the public
interface are distinct. -/
theorem applyOps_edges_keys_nodup (bops : List BuilderOp) :
    (((TaskGraphBuilder.new.applyOps bops).edges).map Prod.fst).Nodup := by
  have main : ∀ (bops : List BuilderOp) (b : TaskGraphBuilder),
      ((b.edges).map Prod.fst).Nodup →
      (((b.applyOps bops).edges).map Prod.fst).Nodup := by
    intro bops
    induction bops with
    | nil => intro b hb; exact hb
    | cons op rest ih =>
      intro b hb
      cases op with
      | addTask t =>
        refine ih _ ?_
        show ((entryOrNil t.id b.edges).map Prod.fst).Nodup
        rcases entryOrNil_keys t.id b.edges with ⟨h1, _⟩ | ⟨h1, h2⟩
        · rw [h1]; exact hb
        · rw [h1]; exact nodup_of_keys_disj hb h2
      | addDep a d =>
        refine ih _ ?_
        show ((entryPush a d b.edges).map Prod.fst).Nodup
        rcases entryPush_keys a d b.edges with ⟨h1, _⟩ | ⟨h1, h2⟩
        · rw [h1]; exact hb
        · rw [h1]; exact nodup_of_keys_disj hb h2
  exact main bops TaskGraphBuilder.new (by simp [TaskGraphBuilder.new])

/-- Every registered task id has a dependency-map entry: the task-map keys of
a builder assembled through the public interface are dependency-map keys. -/
theorem applyOps_tasks_keys_sub_edges (bops : List BuilderOp) :
    ∀ x ∈ ((TaskGraphBuilder.new.applyOps bops).tasks).map Prod.fst,
      x ∈ ((TaskGraphBuilder.new.applyOps bops).edges).map Prod.fst := by
  have main : ∀ (bops : List BuilderOp) (b : TaskGraphBuilder),
      (∀ x ∈ (b.tasks).map Prod.fst, x ∈ (b.edges).map Prod.fst) →
      ∀ x ∈ ((b.applyOps bops).tasks).map Prod.fst,
        x ∈ ((b.applyOps bops).edges).map Prod.fst := by
    intro bops
    induction bops with
    | nil => intro b hb; exact hb
    | cons op rest ih =>
      intro b hb
      cases op with
      | addTask t =>
        refine ih _ ?_
        intro x hx
        have hx2 : x ∈ (mapInsert t.id t b.tasks).map Prod.fst := hx
        have hx' : x = t.id ∨ x ∈ (b.tasks).map Prod.fst := by
          rcases mapInsert_keys t.id t b.tasks with ⟨h1, _⟩ | ⟨h1, _⟩
          · exact Or.inr (h1 ▸ hx2)
          · rw [h1] at hx2
            rcases List.mem_append.mp hx2 with hx2 | hx2
            · exact Or.inr hx2
            · exact Or.inl (by simpa using hx2)
        have hgoal : ∀ y, y ∈ (b.edges).map Prod.fst ∨ y = t.id →
            y ∈ ((entryOrNil t.id b.edges).map Prod.fst) := by
          intro y hy
          rcases entryOrNil_keys t.id b.edges with ⟨h1, h2⟩ | ⟨h1, h2⟩
          · rw [h1]
            rcases hy with hy | hy
            · exact hy
            · exact hy ▸ h2
          · rw [h1]
            rcases hy with hy | hy
            · exact List.mem_append_left _ hy
            · simp [hy]
        rcases hx' with hx' | hx'
        · exact hgoal x (Or.inr hx')
        · exact hgoal x (Or.inl (hb x hx'))
      | addDep a d =>
        refine ih _ ?_
        intro x hx
        have : x ∈ (b.edges).map Prod.fst := hb x hx
        show x ∈ (entryPush a d b.edges).map Prod.fst
        rcases entryPush_keys a d b.edges with ⟨h1, _⟩ | ⟨h1, _⟩
        · rw [h1]; exact this
        · rw [h1]; exact List.mem_append_left _ this
  exact main bops TaskGraphBuilder.new (by simp [TaskGraphBuilder.new])

theorem isKey_mem_keys {α : Type} {m : List (String × α)} {k : String} :
    isKey k m → k ∈ m.map Prod.fst := by
  intro h
  unfold isKey at h
  obtain ⟨v, hv⟩ := Option.isSome_iff_exists.mp h
  exact List.mem_map.mpr ⟨(k, v), mapLookup_mem hv, rfl⟩

/-- Every id in the working order of a built graph is a key of the builder's
dependency map: the sort only ever visits seeds and successors, both keys. -/
theorem build_ok_ordered_keys {b : TaskGraphBuilder} {g : TaskGraph}
    (hb : b.build = Except.ok g) :
    ∀ x ∈ g.ordered_tasks, x ∈ (b.edges).map Prod.fst := by
  obtain ⟨st, hs, hg⟩ := build_ok_elim hb
  obtain ⟨pre, _, hsorted, _, _, horig, _, _, _⟩ :=
    sortLoop_post (successorsOf b.edges) (b.edges.length + 1) (start_edges b.edges)
      { marked := [], temp := [], sorted := [] } st hs
  intro x hx
  have hx' : x ∈ st.sorted := by rw [hg] at hx; simpa using hx
  have hxpre : x ∈ pre := by
    rw [hsorted] at hx'
    simpa using hx'
  rcases horig x hxpre with hroot | ⟨y, hy⟩
  · exact start_edges_mem_keys hroot
  · exact successorsOf_mem_keys hy

/-! ### Claim C9 -/

/-- C9: when every key of the dependency map is registered in the task map,
poll never panics (the embedded `next` never returns `none`) after any run;
and without that precondition, registering only q while declaring p's
dependency on q yields a graph whose poll panics once q is done. -/
theorem C9_poll_panics_only_for_unregistered
    (b : TaskGraphBuilder) (g₀ : TaskGraph) (sops : List SchedOp)
    (hreg : ∀ k ∈ (b.edges).map Prod.fst, isKey k b.tasks)
    (hb : b.build = Except.ok g₀) :
    ((g₀.run sops).next ≠ none) ∧
    ((TaskGraphBuilder.new.applyOps pqOps).build = Except.ok pqGraph ∧
      (pqGraph.run [SchedOp.poll, SchedOp.done "q"]).next = none) := by
  refine ⟨?_, by decide, by decide⟩
  have htasks : (g₀.run sops).tasks = b.tasks := by
    obtain ⟨st, _, hg⟩ := build_ok_elim hb
    rw [(run_frame g₀ sops).1, hg]
  have hord : ∀ x ∈ (g₀.run sops).ordered_tasks, x ∈ (b.edges).map Prod.fst := by
    intro x hx
    exact build_ok_ordered_keys hb x ((run_frame g₀ sops).2.2.1.subset hx)
  intro hnone
  unfold TaskGraph.next at hnone
  by_cases he : (g₀.run sops).ordered_tasks.isEmpty
  · rw [if_pos he] at hnone
    simp at hnone
  · rw [if_neg he] at hnone
    cases hf : findReady (g₀.run sops).edges (g₀.run sops).done
        (g₀.run sops).ordered_tasks with
    | none => rw [hf] at hnone; simp at hnone
    | some pr =>
      cases pr with
      | mk id rest =>
        rw [hf] at hnone
        obtain ⟨l₁, l₂, hl, _, _⟩ := findReady_split hf
        have hidord : id ∈ (g₀.run sops).ordered_tasks := by
          rw [hl]; simp
        have hkey : isKey id b.tasks := hreg id (hord id hidord)
        obtain ⟨t, ht⟩ := Option.isSome_iff_exists.mp hkey
        rw [htasks] at hnone
        simp [ht] at hnone

/-- Witness for C9 at a concrete input: the fully registered two-task builder
never panics, here after a single poll. -/
theorem C9_poll_panics_only_for_unregistered_witness :
    (∀ k ∈ ((TaskGraphBuilder.new.applyOps abOps).edges).map Prod.fst,
      isKey k (TaskGraphBuilder.new.applyOps abOps).tasks) ∧
    ((TaskGraphBuilder.new.applyOps abOps).build = Except.ok abGraph) ∧
    ((abGraph.run [SchedOp.poll]).next ≠ none ∧
      ((TaskGraphBuilder.new.applyOps pqOps).build = Except.ok pqGraph ∧
        (pqGraph.run [SchedOp.poll, SchedOp.done "q"]).next = none)) := by
  refine ⟨by decide, by decide, ?_⟩
  exact C9_poll_panics_only_for_unregistered (TaskGraphBuilder.new.applyOps abOps)
    abGraph [SchedOp.poll] (by decide) (by decide)

/-! ### Claim C4 -/

/-- Coverage of the seeded sort: over an acyclic dependency map whose
dependency ids are all keys, every key ends up in the output order. The
induction is on the number of keys a task transitively depends on. -/
theorem sort_covers_keys
    (E : List (String × List String)) (stf : SortState)
    (hacyc : Acyclic E)
    (hclose : ∀ p ∈ E, ∀ d ∈ p.2, d ∈ E.map Prod.fst)
    (hs : sortLoop (successorsOf E) (E.length + 1) (start_edges E)
      { marked := [], temp := [], sorted := [] } = some (Except.ok stf)) :
    ∀ u ∈ E.map Prod.fst, u ∈ stf.sorted := by
  classical
  obtain ⟨pre, hmarked, hsorted, _, hroots, _, _, _, _⟩ :=
    sortLoop_post (successorsOf E) (E.length + 1) (start_edges E)
      { marked := [], temp := [], sorted := [] } stf hs
  have hinit : GoodSt (successorsOf E) { marked := [], temp := [], sorted := [] } := by
    refine ⟨by simp, ?_, List.nodup_nil⟩
    intro l₁ x l₂ h
    exact absurd h (by simp)
  have hgood := sortLoop_good (successorsOf E) (E.length + 1) (start_edges E)
    { marked := [], temp := [], sorted := [] } stf hs hinit
  have hms : ∀ x, x ∈ stf.marked ↔ x ∈ stf.sorted := hgood.1
  have hclosed : ∀ x ∈ stf.sorted, ∀ m ∈ successorsOf E x, m ∈ stf.sorted := by
    intro x hx m hm
    obtain ⟨l₁, l₂, hsplit⟩ := List.append_of_mem hx
    have := hgood.2.1 l₁ x l₂ hsplit m hm
    rw [hsplit]
    exact List.mem_append_right _ (List.mem_cons_of_mem _ this)
  have main : ∀ n, ∀ u, u ∈ E.map Prod.fst →
      ((E.map Prod.fst).toFinset.filter
        (fun x => Relation.TransGen (depOn E) u x)).card = n →
      u ∈ stf.sorted := by
    intro n
    induction n using Nat.strong_induction_on with
    | _ n ih =>
      intro u hu hcard
      obtain ⟨ds, hds⟩ := mapLookup_isSome_of_mem_keys hu
      cases ds with
      | nil =>
        have hroot : u ∈ start_edges E := mem_start_edges_of_lookup_nil hds
        exact (hms u).mp (hroots u hroot)
      | cons d ds' =>
        have hdep : depOn E u d := by
          unfold depOn
          rw [hds]
          simp
        have hdK : d ∈ E.map Prod.fst :=
          hclose (u, d :: ds') (mapLookup_mem hds) d (by simp)
        have hsub : ((E.map Prod.fst).toFinset.filter
            (fun x => Relation.TransGen (depOn E) d x)) ⊆
            ((E.map Prod.fst).toFinset.filter
            (fun x => Relation.TransGen (depOn E) u x)) := by
          intro x hx
          rw [Finset.mem_filter] at hx ⊢
          exact ⟨hx.1, Relation.TransGen.head hdep hx.2⟩
        have hlt : ((E.map Prod.fst).toFinset.filter
            (fun x => Relation.TransGen (depOn E) d x)).card < n := by
          rw [← hcard]
          apply Finset.card_lt_card
          rw [Finset.ssubset_iff_of_subset hsub]
          refine ⟨d, Finset.mem_filter.mpr
            ⟨List.mem_toFinset.mpr hdK, Relation.TransGen.single hdep⟩, ?_⟩
          intro hc
          exact hacyc d (Finset.mem_filter.mp hc).2
        have hdin : d ∈ stf.sorted := ih _ hlt d hdK rfl
        have husucc : u ∈ successorsOf E d :=
          mem_successorsOf.mpr ⟨(u, d :: ds'), mapLookup_mem hds, rfl, by simp⟩
        exact hclosed d hdin u husucc
  intro u hu
  exact main _ u hu rfl

/-- C4: for every dependency declaration assembled through the public builder
interface whose dependency map is acyclic and whose task and dependency ids
are all registered via `add_task`, `build()` succeeds; the initial working
order covers every registered task id exactly once, and every dependency d of
a task t precedes t in it. -/
theorem C4_acyclic_build_dependency_first
    (bops : List BuilderOp) (b : TaskGraphBuilder)
    (hb : TaskGraphBuilder.new.applyOps bops = b)
    (hreg : ∀ p ∈ b.edges, isKey p.1 b.tasks ∧ ∀ d ∈ p.2, isKey d b.tasks)
    (hacyc : Acyclic b.edges) :
    ∃ g, b.build = Except.ok g ∧
      (∀ id, id ∈ g.ordered_tasks ↔ isKey id b.tasks) ∧
      g.ordered_tasks.Nodup ∧
      (∀ p ∈ b.edges, ∀ d ∈ p.2, ∃ l₁ l₂,
        g.ordered_tasks = l₁ ++ d :: l₂ ∧ p.1 ∈ l₂) := by
  subst hb
  have hEnd : (((TaskGraphBuilder.new.applyOps bops).edges).map Prod.fst).Nodup :=
    applyOps_edges_keys_nodup bops
  have htsub := applyOps_tasks_keys_sub_edges bops
  have hclose : ∀ p ∈ (TaskGraphBuilder.new.applyOps bops).edges, ∀ d ∈ p.2,
      d ∈ ((TaskGraphBuilder.new.applyOps bops).edges).map Prod.fst := by
    intro p hp d hd
    exact htsub d (isKey_mem_keys ((hreg p hp).2 d hd))
  obtain ⟨stf, hs⟩ := sortLoop_ok (successorsOf (TaskGraphBuilder.new.applyOps bops).edges)
    (((TaskGraphBuilder.new.applyOps bops).edges).map Prod.fst)
    (fun x y hy => successorsOf_mem_keys hy)
    (acyclic_no_succ_cycle hEnd hacyc)
    ((TaskGraphBuilder.new.applyOps bops).edges.length + 1)
    (by rw [List.length_map])
    (start_edges (TaskGraphBuilder.new.applyOps bops).edges)
    { marked := [], temp := [], sorted := [] }
    (fun r hr => start_edges_mem_keys hr)
    rfl
  have hbuild : (TaskGraphBuilder.new.applyOps bops).build =
      Except.ok
        { tasks := (TaskGraphBuilder.new.applyOps bops).tasks,
          edges := (TaskGraphBuilder.new.applyOps bops).edges,
          done := [], ordered_tasks := stf.sorted } := by
    unfold TaskGraphBuilder.build topological_sort
    rw [hs]
  have hinit : GoodSt (successorsOf (TaskGraphBuilder.new.applyOps bops).edges)
      { marked := [], temp := [], sorted := [] } := by
    refine ⟨by simp, ?_, List.nodup_nil⟩
    intro l₁ x l₂ h
    exact absurd h (by simp)
  have hgood := sortLoop_good _ _ _ _ stf hs hinit
  have hcover := sort_covers_keys (TaskGraphBuilder.new.applyOps bops).edges stf
    hacyc hclose hs
  have hsortedkeys : ∀ x ∈ stf.sorted,
      x ∈ ((TaskGraphBuilder.new.applyOps bops).edges).map Prod.fst :=
    build_ok_ordered_keys hbuild
  refine ⟨_, hbuild, ?_, hgood.2.2, ?_⟩
  · intro id
    constructor
    · intro hid
      have hk := hsortedkeys id hid
      obtain ⟨p, hp, hp1⟩ := List.mem_map.mp hk
      exact hp1 ▸ (hreg p hp).1
    · intro hid
      have h1 : id ∈ ((TaskGraphBuilder.new.applyOps bops).tasks).map Prod.fst :=
        isKey_mem_keys hid
      exact hcover id (htsub id h1)
  · intro p hp d hd
    have hdK : d ∈ ((TaskGraphBuilder.new.applyOps bops).edges).map Prod.fst :=
      hclose p hp d hd
    have hdin : d ∈ stf.sorted := hcover d hdK
    obtain ⟨l₁, l₂, hsplit⟩ := List.append_of_mem hdin
    refine ⟨l₁, l₂, hsplit, ?_⟩
    refine hgood.2.1 l₁ d l₂ hsplit p.1 ?_
    exact mem_successorsOf.mpr ⟨p, hp, rfl, hd⟩

/-- Witness for C4 at a concrete input: the one-task acyclic declaration
builds, and its working order is exactly the registered task. -/
theorem C4_acyclic_build_dependency_first_witness :
    (∀ p ∈ aOnly.edges, isKey p.1 aOnly.tasks ∧ ∀ d ∈ p.2, isKey d aOnly.tasks) ∧
    Acyclic aOnly.edges ∧
    ∃ g, aOnly.build = Except.ok g ∧
      (∀ id, id ∈ g.ordered_tasks ↔ isKey id aOnly.tasks) ∧
      g.ordered_tasks.Nodup ∧
      (∀ p ∈ aOnly.edges, ∀ d ∈ p.2, ∃ l₁ l₂,
        g.ordered_tasks = l₁ ++ d :: l₂ ∧ p.1 ∈ l₂) := by
  have hstep : ∀ x y : String, ¬ depOn aOnly.edges x y := by
    intro x y hxy
    have he : aOnly.edges = [("a", [])] := rfl
    rw [he] at hxy
    unfold depOn at hxy
    by_cases hx : x = "a"
    · rw [show mapLookup x [("a", [])] = some [] by simp [mapLookup, hx]] at hxy
      simp at hxy
    · rw [show mapLookup x [("a", ([] : List String))] = none by
        simp [mapLookup, hx]] at hxy
      simp at hxy
  have hacyc : Acyclic aOnly.edges := by
    intro id h
    cases h with
    | single h' => exact hstep _ _ h'
    | tail _ h' => exact hstep _ _ h'
  exact ⟨by decide, hacyc,
    C4_acyclic_build_dependency_first [BuilderOp.addTask tA] aOnly rfl (by decide) hacyc⟩

end NxRs
